import Mathlib

/-! Dimensions (nupic/ntypes/Dimensions.hpp)

A shallow embedding of the class `nupic::Dimensions`, a `std::vector<UInt>`
with a cell count and four state predicates, followed by theorems about it.

Machine integers are natural numbers and integers with explicit reduction:
`UInt` is a 32-bit unsigned integer, `int` a 32-bit two's complement integer
and `size_t` a 64-bit unsigned integer.
-/

namespace nupic

/-! ## Machine integers -/

/-- Modelled from the spec: the width in bits of `UInt`, whose declaration
(`nupic/types/Types.hpp`) is not part of the sources at hand; the extents are
32-bit unsigned integers. -/
def UINT_BITS : Nat := 32

/-- The width in bits of `int`, the type of the literal `1` that seeds the
accumulator of `getCount`. -/
def INT_BITS : Nat := 32

/-- The width in bits of `size_t`, the return type of `getCount`. -/
def SIZE_T_BITS : Nat := 64

/-- Conversion of an `int` to `UInt`: the value modulo `2 ^ 32`. -/
def toUInt (i : Int) : Nat := (i % (2 : Int) ^ UINT_BITS).toNat

/-- Conversion of a `UInt` to `int`: the two's complement reading of the low
32 bits. -/
def toInt (u : Nat) : Int :=
  if u % 2 ^ INT_BITS < 2 ^ (INT_BITS - 1) then ((u % 2 ^ INT_BITS : Nat) : Int)
  else ((u % 2 ^ INT_BITS : Nat) : Int) - (2 : Int) ^ INT_BITS

/-- Conversion of an `int` to `size_t`: the value modulo `2 ^ 64`. -/
def toSizeT (i : Int) : Nat := (i % (2 : Int) ^ SIZE_T_BITS).toNat

/-- The function object `std::multiplies<UInt>`: the product of two `UInt`
values, modulo `2 ^ 32`. -/
def multiplies (a b : Nat) : Nat := (a * b) % 2 ^ UINT_BITS

/-- The algorithm `std::accumulate(first, last, init, op)` with an accumulator
of type `int` over a range of `UInt`: `acc = op(acc, *it)` from left to
right. -/
def accumulate (xs : List Nat) (init : Int) (op : Int → Nat → Int) : Int :=
  match xs with
  | [] => init
  | x :: rest => accumulate rest (op init x) op

/-! ## The class -/

/-- The class `Dimensions : public std::vector<UInt>`: the sequence of the
extents, index 0 first. -/
abbrev Dimensions := List Nat

/-- Every entry of a `Dimensions` is a `UInt`: it is below `2 ^ 32`. -/
def Dimensions.wf (d : Dimensions) : Prop := ∀ x ∈ d, x < 2 ^ UINT_BITS

instance (d : Dimensions) : Decidable d.wf := by
  unfold Dimensions.wf; infer_instance

/-- The error of a bounds-checked access. -/
inductive Error where
  | out_of_range
  deriving DecidableEq, Repr

deriving instance DecidableEq for Except

/-- The inherited `size()`. -/
def Dimensions.size (d : Dimensions) : Nat := d.length

/-- The inherited bounds-checked `at(n)`: the entry at `n`, or
`std::out_of_range` when `n >= size()`. -/
def Dimensions.at_ (d : Dimensions) (n : Nat) : Except Error Nat :=
  if h : n < d.length then .ok (d.get ⟨n, h⟩) else .error Error.out_of_range

/-- The inherited `push_back(x)`. -/
def Dimensions.push_back (d : Dimensions) (x : Nat) : Dimensions := d ++ [x]

/-- The constructor `Dimensions()`. -/
def Dimensions.new0 : Dimensions := []

/-- The constructor `Dimensions(UInt x)`. -/
def Dimensions.new1 (x : Nat) : Dimensions := Dimensions.push_back [] x

/-- The constructor `Dimensions(UInt x, UInt y)`. -/
def Dimensions.new2 (x y : Nat) : Dimensions :=
  Dimensions.push_back (Dimensions.push_back [] x) y

/-- The constructor `Dimensions(UInt x, UInt y, UInt z)`. -/
def Dimensions.new3 (x y z : Nat) : Dimensions :=
  Dimensions.push_back (Dimensions.push_back (Dimensions.push_back [] x) y) z

/-- The constructor `Dimensions(const std::vector<UInt>& v)`. -/
def Dimensions.ofVector (v : List Nat) : Dimensions := v

/-- The copy constructor `Dimensions(const Dimensions& d)`. -/
def Dimensions.copy (d : Dimensions) : Dimensions := d

/-- The step of the accumulation in `getCount`: the `int` accumulator is
converted to `UInt`, multiplied by the entry by `std::multiplies<UInt>`, and
the `UInt` product is converted back to `int`. -/
def countStep (acc : Int) (x : Nat) : Int := toInt (multiplies (toUInt acc) x)

/-- The method `getCount()`:
`(size() > 0) ? std::accumulate(begin(), end(), 1, std::multiplies<UInt>()) : 0`,
an `int`, converted to the return type `size_t`. -/
def Dimensions.getCount (d : Dimensions) : Nat :=
  toSizeT (if d.size > 0 then accumulate d 1 countStep else 0)

/-- The method `isUnspecified()`. -/
def Dimensions.isUnspecified (d : Dimensions) : Bool := d.size == 0

/-- The method `isDontcare()`: `size() == 1 && at(0) == 0`, the right operand
evaluated only when the left one holds. -/
def Dimensions.isDontcare (d : Dimensions) : Except Error Bool :=
  if d.size == 1 then
    match d.at_ 0 with
    | .ok v => .ok (v == 0)
    | .error e => .error e
  else .ok false

/-- The method `isInvalid()`. -/
def Dimensions.isInvalid (d : Dimensions) : Bool := d.getCount == 0

/-- The method `isSpecified()`. -/
def Dimensions.isSpecified (d : Dimensions) : Bool := !d.isInvalid

/-- The constant `static const int DONTCARE = 0`. -/
def Dimensions.DONTCARE : Int := 0

/-! ## Objects and their storage

A `std::vector` object does not hold its entries: it refers to a buffer of
the heap that does. Two objects that refer to the same buffer share their
entries, and a write through one of them is seen through the other. -/

/-- The memory: the buffers of the heap, by address, and the live `Dimensions`
objects, by address, each one given by the address of the buffer that holds
its entries. -/
structure Memory where
  buffers : List (List Nat)
  objects : List Nat
  deriving DecidableEq, Repr

/-- The entries of the object at address `o`, read through its buffer. -/
def Memory.entries (m : Memory) (o : Nat) : Option Dimensions :=
  match m.objects.get? o with
  | none => none
  | some b => m.buffers.get? b

/-- The copy constructor `Dimensions(const Dimensions& d) : std::vector<UInt>(d)`
run on the source object at address `s`: the copy constructor of `std::vector`
allocates a new buffer, copies the entries of the source into it, and the new
object refers to that buffer. Returns the memory and the address of the new
object. -/
def Memory.copyConstruct (m : Memory) (s : Nat) : Option (Memory × Nat) :=
  match m.entries s with
  | none => none
  | some d =>
    some (⟨m.buffers ++ [Dimensions.copy d], m.objects ++ [m.buffers.length]⟩,
      m.objects.length)

/-- The mutations of the inherited sequence: `push_back(x)`, the index
assignment `at(i) = v` (bounds-checked), and `resize(n)`. -/
inductive Mutation where
  | push_back (x : Nat)
  | assign (i : Nat) (v : Nat)
  | resize (n : Nat)
  deriving DecidableEq, Repr

/-- The effect of a mutation on the entries of the object it is called on.
`resize(n)` keeps the first `n` entries and pads with value-initialised
entries (zero) up to length `n`. -/
def Mutation.apply (μ : Mutation) (d : Dimensions) : Except Error Dimensions :=
  match μ with
  | .push_back x => .ok (d.push_back x)
  | .assign i v => if i < d.size then .ok (d.set i v) else .error Error.out_of_range
  | .resize n => .ok (d.take n ++ List.replicate (n - d.size) 0)

/-- A mutation called on the object at address `o`: the entries are read
from the buffer the object refers to and the result is written to that
buffer, so every object that refers to it sees the write. A mutation that
throws leaves the memory as it is. -/
def Memory.mutate (m : Memory) (o : Nat) (μ : Mutation) : Except Error Memory :=
  match m.objects.get? o with
  | none => .error Error.out_of_range
  | some b =>
    match m.buffers.get? b with
    | none => .error Error.out_of_range
    | some d =>
      match μ.apply d with
      | .ok e => .ok ⟨m.buffers.set b e, m.objects⟩
      | .error err => .error err

/-- A sequence of mutations called in turn on the object at address `o`. The
run stops at the first mutation that throws. Returns the memory reached and
the error, if any. -/
def Memory.mutateAll (m : Memory) (o : Nat) (μs : List Mutation) : Memory × Option Error :=
  match μs with
  | [] => (m, none)
  | μ :: rest =>
    match m.mutate o μ with
    | .ok n => Memory.mutateAll n o rest
    | .error err => (m, some err)

/-! ## Textual input and output

The operators `<<` and `>>` of the class hand the entries to the generic
sequence formatter and parser of `nupic/math/StlIo.hpp`. A stream is the text
written so far, or the text still to be read. -/

/-- A character stream. -/
abbrev Stream := List Char

/-- The error of the textual input. -/
inductive ParseError where
  | malformed
  deriving DecidableEq, Repr

/-- Modelled from the spec: the output of one unsigned integer by the generic
sequence formatter (`nupic/math/StlIo.hpp`, not part of the sources at hand),
its decimal digits. -/
def writeUInt (n : Nat) : List Char := Nat.toDigits 10 n

/-- Modelled from the spec: the output of the entries after the first one by
the generic sequence formatter (`nupic/math/StlIo.hpp`, not part of the
sources at hand), each preceded by the delimiter `, `. -/
def writeTail (xs : List Nat) : List Char :=
  match xs with
  | [] => []
  | x :: rest => ',' :: ' ' :: (writeUInt x ++ writeTail rest)

/-- Modelled from the spec: the generic sequence formatter
(`nupic/math/StlIo.hpp`, not part of the sources at hand), which writes a
sequence of unsigned integers as an ordered, bracketed and delimited textual
list such as `[3, 4, 5]`. -/
def writeVector (xs : List Nat) : List Char :=
  match xs with
  | [] => ['[', ']']
  | x :: rest => '[' :: (writeUInt x ++ writeTail rest ++ [']'])

/-- Modelled from the spec: the value of a decimal digit, as read by the
generic sequence parser (`nupic/math/StlIo.hpp`, not part of the sources at
hand). -/
def digitValue (c : Char) : Nat := c.toNat - '0'.toNat

/-- The value of a run of decimal digits read after the value `a`. -/
def digitsValue (cs : List Char) (a : Nat) : Nat :=
  cs.foldl (fun b c => 10 * b + digitValue c) a

/-- Modelled from the spec: the generic sequence parser
(`nupic/math/StlIo.hpp`, not part of the sources at hand) after the opening
bracket. It reads an ordered textual list of unsigned integers, delimited by
`, ` and closed by a bracket; `acc` holds the entries read so far, the last
one first, and `cur` the value of the digits of the entry being read.
Malformed input, and an entry that does not fit `UInt`, fail. Returns the
entries and the rest of the text. -/
def readItems (cs : List Char) (acc : List Nat) (cur : Option Nat) :
    Except ParseError (List Nat × List Char) :=
  match cs with
  | [] => .error ParseError.malformed
  | c :: rest =>
    if c.isDigit then
      readItems rest acc (some (10 * cur.getD 0 + digitValue c))
    else
      match cur with
      | none =>
        if c = ']' ∧ acc = [] then .ok ([], rest) else .error ParseError.malformed
      | some n =>
        if n < 2 ^ UINT_BITS then
          if c = ']' then .ok ((n :: acc).reverse, rest)
          else if c = ',' then
            match rest with
            | ' ' :: more => readItems more (n :: acc) none
            | _ => .error ParseError.malformed
          else .error ParseError.malformed
        else .error ParseError.malformed

/-- Modelled from the spec: the generic sequence parser
(`nupic/math/StlIo.hpp`, not part of the sources at hand): an opening
bracket, then the entries. -/
def readVector (f : Stream) : Except ParseError (List Nat × Stream) :=
  match f with
  | '[' :: rest => readItems rest [] none
  | _ => .error ParseError.malformed

/-- The member `operator<<(std::ostream &f)`, whose body is
`f << (std::vector<UInt>&)*this; return f;`: the entries are written to the
stream by the sequence formatter. Returns the stream. -/
def Dimensions.operator_lshift (d : Dimensions) (f : Stream) : Stream :=
  f ++ writeVector d

/-- The outcome of a call of a function that is declared to return a value:
the value of the `return` statement reached, or undefined behaviour. -/
inductive Outcome (α : Type) where
  | returned (value : α)
  | undefined
  deriving DecidableEq, Repr

/-- The end of the body of a function that is declared to return a value,
reached in the state `after`: with a `return` statement the call returns its
value; without one, control flows off the end of the function and the
behaviour of the call is undefined. -/
def Outcome.atEnd {σ α : Type} (after : σ) (ret : Option (σ → α)) : Outcome (σ × α) :=
  match ret with
  | some r => Outcome.returned (after, r after)
  | none => Outcome.undefined

/-- The one statement of the body of `operator>>(std::istream &f)`,
`f >> (std::vector<UInt>&)*this;`: the sequence parser reads from the stream
into the entries of the object, replacing them; on a failure the object and
the stream are left as they are. Gives the object, the stream after the
read, and the error, if any. -/
def Dimensions.operator_rshift_statement (d : Dimensions) (f : Stream) :
    Dimensions × Stream × Option ParseError :=
  match readVector f with
  | .ok (v, rest) => (v, rest, none)
  | .error err => (d, f, some err)

/-- The member `inline std::istream &operator>>(std::istream &f)`: its body is
the one statement `f >> (std::vector<UInt>&)*this;` and ends without a
`return` statement, although the function is declared to return
`std::istream&`; the sibling `operator<<` ends with `return f;`. -/
def Dimensions.operator_rshift (d : Dimensions) (f : Stream) :
    Outcome ((Dimensions × Stream × Option ParseError) × Stream) :=
  Outcome.atEnd (d.operator_rshift_statement f) none

/-! ## The four states -/

/-- The number of the four state predicates `isUnspecified()`, `isDontcare()`,
`isSpecified()`, `isInvalid()` that return true on `d`. -/
def Dimensions.statesTrue (d : Dimensions) : Nat :=
  [d.isUnspecified, d.isDontcare == .ok true, d.isSpecified, d.isInvalid].count true

/-- The number of true conditions among `isUnspecified()`, `isDontcare()`,
`isSpecified()`, and `isInvalid()` without the two sentinel shapes. -/
def Dimensions.statesTrueProper (d : Dimensions) : Nat :=
  [d.isUnspecified, d.isDontcare == .ok true, d.isSpecified,
    d.isInvalid && !d.isUnspecified && !(d.isDontcare == .ok true)].count true

/-! ## Arithmetic of the count -/

theorem toUInt_toInt (u : Nat) : toUInt (toInt u) = u % 2 ^ 32 := by
  unfold toUInt toInt UINT_BITS INT_BITS
  split <;> omega

theorem toInt_mod (u : Nat) : toInt (u % 2 ^ 32) = toInt u := by
  unfold toInt INT_BITS
  simp

theorem toInt_one : toInt 1 = 1 := by
  unfold toInt INT_BITS
  simp

theorem countStep_toInt (u x : Nat) : countStep (toInt u) x = toInt (u * x) := by
  unfold countStep multiplies UINT_BITS
  rw [toUInt_toInt, toInt_mod, ← toInt_mod (u * x), ← toInt_mod (u % 2 ^ 32 * x)]
  congr 1
  exact Nat.mod_mul_mod

theorem accumulate_toInt (xs : List Nat) (u : Nat) :
    accumulate xs (toInt u) countStep = toInt (u * xs.prod) := by
  induction xs generalizing u with
  | nil => simp [accumulate]
  | cons x rest ih =>
    rw [accumulate, countStep_toInt, ih, List.prod_cons, Nat.mul_assoc]

theorem toSizeT_toInt (u : Nat) :
    toSizeT (toInt u) =
      if u % 2 ^ 32 < 2 ^ 31 then u % 2 ^ 32 else u % 2 ^ 32 + (2 ^ 64 - 2 ^ 32) := by
  unfold toSizeT toInt SIZE_T_BITS INT_BITS
  split <;> omega

theorem getCount_nil : Dimensions.getCount [] = 0 := by
  simp [Dimensions.getCount, Dimensions.size, toSizeT]

theorem getCount_eq (d : Dimensions) (h : d ≠ []) :
    d.getCount =
      if d.prod % 2 ^ 32 < 2 ^ 31 then d.prod % 2 ^ 32
      else d.prod % 2 ^ 32 + (2 ^ 64 - 2 ^ 32) := by
  have hpos : d.size > 0 := List.length_pos.mpr h
  unfold Dimensions.getCount
  rw [if_pos hpos, ← toInt_one, accumulate_toInt, Nat.one_mul, toSizeT_toInt]

theorem getCount_eq_zero_iff (d : Dimensions) :
    d.getCount = 0 ↔ d = [] ∨ d.prod % 2 ^ 32 = 0 := by
  by_cases h : d = []
  · subst h; simp [getCount_nil]
  · rw [getCount_eq d h]
    simp only [h, false_or]
    split <;> omega

theorem prod_eq_zero_of_mem (d : Dimensions) (h : 0 ∈ d) : d.prod = 0 :=
  List.prod_eq_zero h

theorem pos_of_prod_ne_zero (d : Dimensions) (h : d.prod ≠ 0) : ∀ x ∈ d, 0 < x := by
  intro x hx
  rcases Nat.eq_zero_or_pos x with h0 | h0
  · subst h0; exact absurd (List.prod_eq_zero hx) h
  · exact h0

theorem prod_pos_of_pos (d : Dimensions) (h : ∀ x ∈ d, 0 < x) : 0 < d.prod := by
  induction d with
  | nil => simp
  | cons x rest ih =>
    rw [List.prod_cons]
    exact Nat.mul_pos (h x (List.mem_cons_self x rest))
      (ih (fun y hy => h y (List.mem_cons_of_mem x hy)))

theorem isInvalid_iff (d : Dimensions) :
    d.isInvalid = true ↔ d = [] ∨ d.prod % 2 ^ 32 = 0 := by
  unfold Dimensions.isInvalid
  rw [beq_iff_eq]
  exact getCount_eq_zero_iff d

theorem isSpecified_iff (d : Dimensions) :
    d.isSpecified = true ↔ d ≠ [] ∧ d.prod % 2 ^ 32 ≠ 0 := by
  unfold Dimensions.isSpecified
  rw [Bool.not_eq_true', ← Bool.not_eq_true, isInvalid_iff]
  tauto

theorem isUnspecified_iff (d : Dimensions) : d.isUnspecified = true ↔ d = [] := by
  unfold Dimensions.isUnspecified Dimensions.size
  rw [beq_iff_eq]
  exact List.length_eq_zero

theorem isDontcare_eq (d : Dimensions) : d.isDontcare = .ok (decide (d = [0])) := by
  match d with
  | [] => rfl
  | [x] =>
    cases x <;> simp [Dimensions.isDontcare, Dimensions.size, Dimensions.at_]
  | x :: y :: rest => simp [Dimensions.isDontcare, Dimensions.size]

theorem isDontcare_iff (d : Dimensions) : d.isDontcare = .ok true ↔ d = [0] := by
  rw [isDontcare_eq]
  simp

/-! ## The count -/

/-- C1: on the one-axis shape `[2147483648]`, a non-empty shape of 32-bit
extents whose exact product `2 ^ 31` is below `2 ^ 32`, `getCount()` returns
`18446744071562067968` (that is `2 ^ 64 - 2 ^ 31`) and not the product: the
accumulator seeded by the `int` literal `1` is signed and is sign-extended by
the conversion to `size_t`. -/
theorem getCount_int_seed_sign_extends :
    Dimensions.wf [2147483648] ∧
    ([2147483648] : Dimensions) ≠ [] ∧
    List.prod ([2147483648] : Dimensions) < 2 ^ 32 ∧
    Dimensions.getCount [2147483648] = 18446744071562067968 ∧
    Dimensions.getCount [2147483648] ≠ List.prod ([2147483648] : Dimensions) := by
  decide

/-! ## The state predicates -/

/-- C2, as stated, fails: the shape `[65536, 65536]` has 32-bit extents, is
non-empty and has every entry greater than 0, yet its product `2 ^ 32` wraps
to 0, so `isSpecified()` is false and `isInvalid()` is true. -/
theorem isSpecified_wrapped_product_counterexample :
    Dimensions.wf [65536, 65536] ∧
    ([65536, 65536] : Dimensions) ≠ [] ∧
    (∀ x ∈ ([65536, 65536] : Dimensions), 0 < x) ∧
    Dimensions.isSpecified [65536, 65536] = false ∧
    Dimensions.isInvalid [65536, 65536] = true := by
  decide

/-- C2, amended: for every `d`, `isSpecified()` is true iff `d` is non-empty,
every entry is greater than 0 and the exact product of the entries is not a
multiple of `2 ^ 32`; `isInvalid()` is true iff `d` is empty, some entry is 0
or the product is a multiple of `2 ^ 32`; and when the exact product is below
`2 ^ 32`, `isSpecified()` is true iff `d` is non-empty and every entry is
greater than 0, and `isInvalid()` iff `d` is empty or some entry is 0. -/
theorem isSpecified_iff_nonempty_pos_nowrap (d : Dimensions) :
    (d.isSpecified = true ↔ d ≠ [] ∧ (∀ x ∈ d, 0 < x) ∧ ¬ 2 ^ 32 ∣ d.prod) ∧
    (d.isInvalid = true ↔ d = [] ∨ 0 ∈ d ∨ 2 ^ 32 ∣ d.prod) ∧
    (d.prod < 2 ^ 32 →
      (d.isSpecified = true ↔ d ≠ [] ∧ ∀ x ∈ d, 0 < x) ∧
      (d.isInvalid = true ↔ d = [] ∨ 0 ∈ d)) := by
  have hdvd : 2 ^ 32 ∣ d.prod ↔ d.prod % 2 ^ 32 = 0 := Nat.dvd_iff_mod_eq_zero
  have hzero : 0 ∈ d → d.prod % 2 ^ 32 = 0 := fun h => by
    rw [prod_eq_zero_of_mem d h, Nat.zero_mod]
  have hposall : d.prod % 2 ^ 32 ≠ 0 → ∀ x ∈ d, 0 < x := fun h =>
    pos_of_prod_ne_zero d (fun h0 => h (by rw [h0, Nat.zero_mod]))
  refine ⟨?_, ?_, ?_⟩
  · rw [isSpecified_iff, hdvd]
    constructor
    · rintro ⟨hne, hmod⟩
      exact ⟨hne, hposall hmod, hmod⟩
    · rintro ⟨hne, _, hmod⟩
      exact ⟨hne, hmod⟩
  · rw [isInvalid_iff, hdvd]
    constructor
    · rintro (h | h)
      · exact Or.inl h
      · exact Or.inr (Or.inr h)
    · rintro (h | h | h)
      · exact Or.inl h
      · exact Or.inr (hzero h)
      · exact Or.inr h
  · intro hlt
    have hmod : d.prod % 2 ^ 32 = d.prod := Nat.mod_eq_of_lt hlt
    refine ⟨?_, ?_⟩
    · rw [isSpecified_iff, hmod]
      constructor
      · rintro ⟨hne, hp⟩
        exact ⟨hne, pos_of_prod_ne_zero d hp⟩
      · rintro ⟨hne, hp⟩
        exact ⟨hne, Nat.pos_iff_ne_zero.mp (prod_pos_of_pos d hp)⟩
    · rw [isInvalid_iff, hmod]
      constructor
      · rintro (h | h)
        · exact Or.inl h
        · right
          by_contra hmem
          have hp : ∀ x ∈ d, 0 < x := fun x hx =>
            Nat.pos_of_ne_zero (fun h0 => hmem (h0 ▸ hx))
          exact absurd h (Nat.pos_iff_ne_zero.mp (prod_pos_of_pos d hp))
      · rintro (h | h)
        · exact Or.inl h
        · exact Or.inr (prod_eq_zero_of_mem d h)

/-- C3, as stated, fails: on the empty shape both `isUnspecified()` and
`isInvalid()` are true, and on the don't-care shape `[0]` both `isDontcare()`
and `isInvalid()` are true, so two of the four predicates hold, not one. -/
theorem states_exactly_one_counterexample :
    Dimensions.wf [] ∧
    Dimensions.isUnspecified [] = true ∧ Dimensions.isInvalid [] = true ∧
    Dimensions.statesTrue [] = 2 ∧
    Dimensions.wf [0] ∧
    Dimensions.isDontcare [0] = .ok true ∧ Dimensions.isInvalid [0] = true ∧
    Dimensions.statesTrue [0] = 2 ∧
    ¬ (∀ d : Dimensions, d.wf → d.statesTrue = 1) := by
  refine ⟨by decide, by decide, by decide, by decide, by decide, by decide, by decide,
    by decide, ?_⟩
  intro h
  exact absurd (h [] (by decide)) (by decide)

/-- C3, amended: for every `d`, exactly one of `isSpecified()` and
`isInvalid()` is true; exactly one of the four conditions `isUnspecified()`,
`isDontcare()`, `isSpecified()`, and `isInvalid()` with neither
`isUnspecified()` nor `isDontcare()`, is true; `isUnspecified()` and
`isDontcare()` are never both true, and each of them implies `isInvalid()`. -/
theorem states_partition (d : Dimensions) :
    (d.isSpecified = !d.isInvalid) ∧
    d.statesTrueProper = 1 ∧
    ¬ (d.isUnspecified = true ∧ d.isDontcare = .ok true) ∧
    (d.isUnspecified = true → d.isInvalid = true) ∧
    (d.isDontcare = .ok true → d.isInvalid = true) := by
  have hU := isUnspecified_iff d
  have hD := isDontcare_iff d
  have hI := isInvalid_iff d
  refine ⟨rfl, ?_, ?_, ?_, ?_⟩
  · unfold Dimensions.statesTrueProper Dimensions.isSpecified
    by_cases h0 : d = []
    · subst h0; decide
    · by_cases h1 : d = [0]
      · subst h1; decide
      · have hU' : d.isUnspecified = false := by
          rw [← Bool.not_eq_true, hU]; exact h0
        have hD' : (d.isDontcare == Except.ok true) = false := by
          rw [← Bool.not_eq_true, beq_iff_eq, hD]; exact h1
        rw [hU', hD']
        cases d.isInvalid <;> decide
  · rintro ⟨h1, h2⟩
    rw [hU] at h1
    rw [hD] at h2
    rw [h1] at h2
    exact absurd h2 (by decide)
  · intro h
    rw [hU] at h
    subst h; decide
  · intro h
    rw [hD] at h
    subst h; decide

/-- C4: for every `d`, `isUnspecified()` is true iff `size() == 0`; the
default-constructed `Dimensions()` has size 0; and every empty `d` has
`isUnspecified()` true, `isDontcare()` false, `getCount() == 0`,
`isInvalid()` true and `isSpecified()` false. -/
theorem isUnspecified_iff_size_zero (d : Dimensions) :
    (d.isUnspecified = true ↔ d.size = 0) ∧
    Dimensions.new0.size = 0 ∧
    (d.size = 0 →
      d.isUnspecified = true ∧ d.isDontcare = .ok false ∧ d.getCount = 0 ∧
      d.isInvalid = true ∧ d.isSpecified = false) := by
  refine ⟨?_, rfl, ?_⟩
  · unfold Dimensions.isUnspecified
    exact beq_iff_eq
  · intro h
    have h0 : d = [] := List.length_eq_zero.mp h
    subst h0
    decide

/-- C5: for every `d`, `isDontcare()` is true iff `size() == 1` and the single
entry `at(0)` equals 0, the value of `DONTCARE`; `Dimensions(DONTCARE)` is
such a shape; and every such shape has `isUnspecified()` false,
`getCount() == 0`, `isInvalid()` true and `isSpecified()` false. -/
theorem isDontcare_iff_single_zero (d : Dimensions) :
    (d.isDontcare = .ok true ↔ d.size = 1 ∧ d.at_ 0 = .ok (toUInt Dimensions.DONTCARE)) ∧
    toUInt Dimensions.DONTCARE = 0 ∧
    (Dimensions.new1 (toUInt Dimensions.DONTCARE)).isDontcare = .ok true ∧
    (d.isDontcare = .ok true →
      d.isUnspecified = false ∧ d.getCount = 0 ∧ d.isInvalid = true ∧
      d.isSpecified = false) := by
  have hdc : toUInt Dimensions.DONTCARE = 0 := by decide
  refine ⟨?_, hdc, by decide, ?_⟩
  · rw [isDontcare_iff, hdc]
    match d with
    | [] => simp [Dimensions.size]
    | [x] => simp [Dimensions.size, Dimensions.at_]
    | x :: y :: rest => simp [Dimensions.size]
  · intro h
    rw [isDontcare_iff] at h
    subst h
    decide

/-- C6: for every `d` with at least one entry equal to 0, at any position and
whatever the other entries are, `getCount() == 0`, `isInvalid()` is true and
`isSpecified()` is false; and if `size() != 1` then `isDontcare()` is
false. -/
theorem zero_entry_invalid (d : Dimensions) (h : 0 ∈ d) :
    d.getCount = 0 ∧ d.isInvalid = true ∧ d.isSpecified = false ∧
    (d.size ≠ 1 → d.isDontcare = .ok false) := by
  have hI : d.isInvalid = true :=
    (isInvalid_iff d).mpr (Or.inr (by rw [prod_eq_zero_of_mem d h, Nat.zero_mod]))
  refine ⟨?_, hI, ?_, ?_⟩
  · exact beq_iff_eq.mp hI
  · unfold Dimensions.isSpecified
    rw [hI]
    rfl
  · intro hsize
    rw [isDontcare_eq]
    have hne : d ≠ [0] := fun h0 => hsize (by rw [h0]; rfl)
    simp [hne]

/-- C6 at the shape `[3, 0, 5]` and at the shape `[4294967295, 0, 4294967295]`,
whose other entries alone have a product beyond 32 bits. -/
theorem zero_entry_invalid_witness :
    (0 ∈ ([3, 0, 5] : Dimensions) ∧
      Dimensions.getCount [3, 0, 5] = 0 ∧ Dimensions.isInvalid [3, 0, 5] = true ∧
      Dimensions.isSpecified [3, 0, 5] = false ∧
      (Dimensions.size [3, 0, 5] ≠ 1 → Dimensions.isDontcare [3, 0, 5] = .ok false)) ∧
    (0 ∈ ([4294967295, 0, 4294967295] : Dimensions) ∧
      Dimensions.getCount [4294967295, 0, 4294967295] = 0) :=
  ⟨⟨by decide, zero_entry_invalid [3, 0, 5] (by decide)⟩,
    ⟨by decide, (zero_entry_invalid [4294967295, 0, 4294967295] (by decide)).1⟩⟩

/-- C7: for every non-empty sequence `v` of extents in which every entry is at
least 1 and whose exact product is below `2 ^ 31`, the `Dimensions` built from
`v` has `getCount()` equal to that product, which is greater than 0,
`isSpecified()` true, `isInvalid()` false, `isDontcare()` false and
`isUnspecified()` false. -/
theorem specified_of_pos_below_int_max (v : List Nat) (hne : v ≠ [])
    (hpos : ∀ x ∈ v, 1 ≤ x) (hlt : v.prod < 2 ^ 31) :
    (Dimensions.ofVector v).getCount = v.prod ∧
    0 < (Dimensions.ofVector v).getCount ∧
    (Dimensions.ofVector v).isSpecified = true ∧
    (Dimensions.ofVector v).isInvalid = false ∧
    (Dimensions.ofVector v).isDontcare = .ok false ∧
    (Dimensions.ofVector v).isUnspecified = false := by
  unfold Dimensions.ofVector
  have hprod : 0 < v.prod := prod_pos_of_pos v hpos
  have hmod : v.prod % 2 ^ 32 = v.prod := Nat.mod_eq_of_lt (by omega)
  have hcount : Dimensions.getCount v = v.prod := by
    rw [getCount_eq v hne, hmod, if_pos hlt]
  have hspec : Dimensions.isSpecified v = true :=
    (isSpecified_iff v).mpr ⟨hne, by rw [hmod]; omega⟩
  have hinv : Dimensions.isInvalid v = false := by
    unfold Dimensions.isSpecified at hspec
    rw [Bool.not_eq_true'] at hspec
    exact hspec
  refine ⟨hcount, by rw [hcount]; exact hprod, hspec, hinv, ?_, ?_⟩
  · rw [isDontcare_eq]
    have hne0 : v ≠ [0] := fun h0 => by
      have := hpos 0 (by rw [h0]; exact List.mem_singleton_self 0)
      omega
    simp [hne0]
  · rw [← Bool.not_eq_true, isUnspecified_iff]
    exact hne

/-- C7 at the sequence `[3, 4]`: the count is 12. -/
theorem specified_of_pos_below_int_max_witness :
    List.prod [3, 4] = 12 ∧
    (Dimensions.ofVector [3, 4]).getCount = List.prod [3, 4] ∧
    0 < (Dimensions.ofVector [3, 4]).getCount ∧
    (Dimensions.ofVector [3, 4]).isSpecified = true ∧
    (Dimensions.ofVector [3, 4]).isInvalid = false ∧
    (Dimensions.ofVector [3, 4]).isDontcare = .ok false ∧
    (Dimensions.ofVector [3, 4]).isUnspecified = false :=
  ⟨by decide,
    specified_of_pos_below_int_max [3, 4] (by decide) (by decide) (by decide)⟩

/-! ## Construction -/

/-- C8: for all `x`, `y`, `z`, zero included, `Dimensions(x)` has size 1 with
`at(0) == x`; `Dimensions(x, y)` has size 2 with `at(0) == x`, `at(1) == y`;
`Dimensions(x, y, z)` has size 3 with `at(0) == x`, `at(1) == y`,
`at(2) == z`; and for every vector `v`, `Dimensions(v)` has the length of `v`
and the entries of `v` in the same order, zero entries included. -/
theorem constructors_positional (x y z : Nat) (v : List Nat) :
    ((Dimensions.new1 x).size = 1 ∧ (Dimensions.new1 x).at_ 0 = .ok x) ∧
    ((Dimensions.new2 x y).size = 2 ∧ (Dimensions.new2 x y).at_ 0 = .ok x ∧
      (Dimensions.new2 x y).at_ 1 = .ok y) ∧
    ((Dimensions.new3 x y z).size = 3 ∧ (Dimensions.new3 x y z).at_ 0 = .ok x ∧
      (Dimensions.new3 x y z).at_ 1 = .ok y ∧ (Dimensions.new3 x y z).at_ 2 = .ok z) ∧
    ((Dimensions.ofVector v).size = v.length ∧
      (∀ i (h : i < v.length), (Dimensions.ofVector v).at_ i = .ok (v.get ⟨i, h⟩)) ∧
      (∀ i, 0 ∈ v.get? i → (Dimensions.ofVector v).at_ i = .ok 0)) := by
  refine ⟨⟨rfl, rfl⟩, ⟨rfl, rfl, rfl⟩, ⟨rfl, rfl, rfl, rfl⟩, rfl, ?_, ?_⟩
  · intro i h
    unfold Dimensions.ofVector Dimensions.at_
    rw [dif_pos h]
  · intro i h
    unfold Dimensions.ofVector Dimensions.at_
    rw [Option.mem_def, List.get?_eq_some] at h
    obtain ⟨hi, hget⟩ := h
    rw [dif_pos hi]
    exact congrArg Except.ok hget

/-- C9: for every `d`, `isSpecified()` is the negation of `isInvalid()`, that
is `isSpecified()` iff `getCount() != 0`; every `d` with `isSpecified()` has
`size() >= 1` and `isUnspecified()` false; and on the don't-care shape `[0]`
both `isSpecified()` and `isUnspecified()` are false, so `isSpecified()` is
not the negation of `isUnspecified()`. -/
theorem isSpecified_not_isInvalid (d : Dimensions) :
    (d.isSpecified = !d.isInvalid) ∧
    (d.isSpecified = true ↔ d.getCount ≠ 0) ∧
    (d.isSpecified = true → 1 ≤ d.size ∧ d.isUnspecified = false) ∧
    (Dimensions.isSpecified [0] = false ∧ Dimensions.isUnspecified [0] = false) ∧
    ¬ (∀ e : Dimensions, e.isSpecified = !e.isUnspecified) := by
  refine ⟨rfl, ?_, ?_, ⟨by decide, by decide⟩, ?_⟩
  · unfold Dimensions.isSpecified Dimensions.isInvalid
    rw [Bool.not_eq_true', beq_eq_false_iff_ne]
  · intro h
    have hne : d ≠ [] := ((isSpecified_iff d).mp h).1
    refine ⟨List.length_pos.mpr hne, ?_⟩
    rw [← Bool.not_eq_true, isUnspecified_iff]
    exact hne
  · intro h
    exact absurd (h [0]) (by decide)

/-! ## Copies -/

theorem mutate_objects (m n : Memory) (o : Nat) (μ : Mutation)
    (h : m.mutate o μ = .ok n) : n.objects = m.objects := by
  unfold Memory.mutate at h
  split at h
  · exact absurd h (by simp)
  · split at h
    · exact absurd h (by simp)
    · split at h
      · injection h with h
        subst h
        rfl
      · exact absurd h (by simp)

theorem mutate_frame (m n : Memory) (o s b bs : Nat) (μ : Mutation)
    (ho : m.objects.get? o = some b) (hs : m.objects.get? s = some bs) (hne : bs ≠ b)
    (h : m.mutate o μ = .ok n) : n.entries s = m.entries s := by
  unfold Memory.mutate at h
  rw [ho] at h
  simp only at h
  split at h
  · exact absurd h (by simp)
  · split at h
    · injection h with h
      subst h
      unfold Memory.entries
      simp only [hs]
      rw [List.get?_eq_getElem?, List.get?_eq_getElem?]
      exact List.getElem?_set_ne (Ne.symm hne)
    · exact absurd h (by simp)

theorem mutate_effect (m : Memory) (o b : Nat) (d e : Dimensions) (μ : Mutation)
    (ho : m.objects.get? o = some b) (hb : m.buffers.get? b = some d)
    (hμ : μ.apply d = .ok e) :
    ∃ n, m.mutate o μ = .ok n ∧ n.entries o = some e := by
  refine ⟨⟨m.buffers.set b e, m.objects⟩, ?_, ?_⟩
  · unfold Memory.mutate
    rw [ho]
    simp only [hb, hμ]
  · unfold Memory.entries
    simp only [ho]
    have hlt : b < m.buffers.length := (List.get?_eq_some.mp hb).1
    rw [List.get?_eq_getElem?, List.getElem?_set_self hlt]

theorem mutateAll_frame (μs : List Mutation) (m : Memory) (o s b bs : Nat)
    (ho : m.objects.get? o = some b) (hs : m.objects.get? s = some bs) (hne : bs ≠ b) :
    (m.mutateAll o μs).1.entries s = m.entries s := by
  induction μs generalizing m with
  | nil => rfl
  | cons μ rest ih =>
    unfold Memory.mutateAll
    split
    · next n hn =>
      have hobj := mutate_objects m n o μ hn
      rw [ih n (by rw [hobj]; exact ho) (by rw [hobj]; exact hs),
        mutate_frame m n o s b bs μ ho hs hne hn]
    · rfl

/-- Two objects that refer to one buffer are not independent: in the memory
whose objects 0 and 1 both refer to the buffer holding `[3, 4]`, a
`push_back(5)` on object 1 changes the entries of object 0. -/
theorem shared_buffer_not_independent :
    Memory.entries ⟨[[3, 4]], [0, 0]⟩ 0 = some [3, 4] ∧
    (Memory.mutateAll ⟨[[3, 4]], [0, 0]⟩ 1 [.push_back 5]).1.entries 0 = some [3, 4, 5] := by
  decide

/-- C10: for every object `s` holding the entries `d`, the copy constructor
gives a new object whose entries have the same size and are the same in the
same order (so `getCount()` and the four state predicates agree on both);
a mutation called on the copy changes the entries of the copy; and any
sequence of mutations (append, index assignment, resize) called on the copy
leaves the size and every entry of `s` unchanged. -/
theorem copy_independent (m : Memory) (s : Nat) (d : Dimensions)
    (hs : m.entries s = some d) (μs : List Mutation) :
    ∃ n c, m.copyConstruct s = some (n, c) ∧ c ≠ s ∧
      (∃ e, n.entries c = some e ∧ e.size = d.size ∧ (∀ i, e.at_ i = d.at_ i) ∧
        e.getCount = d.getCount ∧ e.isUnspecified = d.isUnspecified ∧
        e.isDontcare = d.isDontcare ∧ e.isSpecified = d.isSpecified ∧
        e.isInvalid = d.isInvalid) ∧
      n.entries s = some d ∧
      (∀ μ e, μ.apply d = .ok e → (n.mutateAll c [μ]).1.entries c = some e) ∧
      (n.mutateAll c μs).1.entries s = some d ∧
      (∀ i, ((n.mutateAll c μs).1.entries s).map (fun e => (e.size, e.at_ i))
        = some (d.size, d.at_ i)) := by
  have hs0 := hs
  unfold Memory.entries at hs0
  split at hs0
  · exact absurd hs0 (by simp)
  · next bs hbs =>
    have hslt : s < m.objects.length := (List.get?_eq_some.mp hbs).1
    have hbslt : bs < m.buffers.length := (List.get?_eq_some.mp hs0).1
    have hcopy : m.copyConstruct s =
        some (⟨m.buffers ++ [Dimensions.copy d], m.objects ++ [m.buffers.length]⟩,
          m.objects.length) := by
      unfold Memory.copyConstruct
      rw [hs]
    have hobjc : (m.objects ++ [m.buffers.length]).get? m.objects.length
        = some m.buffers.length := by
      rw [List.get?_eq_getElem?]
      exact List.getElem?_concat_length _ _
    have hobjs : (m.objects ++ [m.buffers.length]).get? s = some bs := by
      rw [List.get?_eq_getElem?, List.getElem?_append_left hslt, ← List.get?_eq_getElem?]
      exact hbs
    have hbufc : (m.buffers ++ [Dimensions.copy d]).get? m.buffers.length = some d := by
      rw [List.get?_eq_getElem?]
      exact List.getElem?_concat_length _ _
    have hbufs : (m.buffers ++ [Dimensions.copy d]).get? bs = some d := by
      rw [List.get?_eq_getElem?, List.getElem?_append_left hbslt, ← List.get?_eq_getElem?]
      exact hs0
    have hentc : Memory.entries
        ⟨m.buffers ++ [Dimensions.copy d], m.objects ++ [m.buffers.length]⟩
        m.objects.length = some d := by
      unfold Memory.entries
      simp only [hobjc]
      exact hbufc
    have hents : Memory.entries
        ⟨m.buffers ++ [Dimensions.copy d], m.objects ++ [m.buffers.length]⟩ s = some d := by
      unfold Memory.entries
      simp only [hobjs]
      exact hbufs
    have hframe : ∀ l : List Mutation, (Memory.mutateAll
        ⟨m.buffers ++ [Dimensions.copy d], m.objects ++ [m.buffers.length]⟩
        m.objects.length l).1.entries s = some d := by
      intro l
      rw [mutateAll_frame l _ m.objects.length s m.buffers.length bs hobjc hobjs
        (Nat.ne_of_lt hbslt)]
      exact hents
    refine ⟨_, _, hcopy, Nat.ne_of_gt hslt,
      ⟨d, hentc, rfl, fun _ => rfl, rfl, rfl, rfl, rfl, rfl⟩, hents, ?_, hframe μs, ?_⟩
    · intro μ e hμ
      obtain ⟨k, hk, hke⟩ := mutate_effect
        ⟨m.buffers ++ [Dimensions.copy d], m.objects ++ [m.buffers.length]⟩
        m.objects.length m.buffers.length d e μ hobjc hbufc hμ
      unfold Memory.mutateAll
      simp only [hk]
      exact hke
    · intro i
      rw [hframe μs]
      rfl

/-- C10 at the memory holding the one object `[3, 4]`: the copy is the new
object 1 with its own buffer; after `push_back(5)`, `at(0) = 9` and
`resize(5)` on the copy, the copy holds `[9, 4, 5, 0, 0]` and the source
still holds `[3, 4]`; a further `at(7) = 1` on the copy throws and leaves both
as they are. -/
theorem copy_independent_witness :
    Memory.entries ⟨[[3, 4]], [0]⟩ 0 = some [3, 4] ∧
    Memory.copyConstruct ⟨[[3, 4]], [0]⟩ 0 = some (⟨[[3, 4], [3, 4]], [0, 1]⟩, 1) ∧
    Memory.mutateAll ⟨[[3, 4], [3, 4]], [0, 1]⟩ 1
        [.push_back 5, .assign 0 9, .resize 5, .assign 7 1]
      = (⟨[[3, 4], [9, 4, 5, 0, 0]], [0, 1]⟩, some Error.out_of_range) ∧
    (∃ n c, Memory.copyConstruct ⟨[[3, 4]], [0]⟩ 0 = some (n, c) ∧
      (n.mutateAll c [.push_back 5, .assign 0 9, .resize 5, .assign 7 1]).1.entries 0
        = some [3, 4]) :=
  ⟨by decide, by decide, by decide,
    (copy_independent ⟨[[3, 4]], [0]⟩ 0 [3, 4] (by decide)
      [.push_back 5, .assign 0 9, .resize 5, .assign 7 1]).imp
      (fun _ h => h.imp (fun _ h => ⟨h.1, h.2.2.2.2.2.1⟩))⟩

/-! ## Bounds-checked access -/

/-- C11: for every `d` and every index `i`, `at(i)` returns the `i`-th extent
when `i < size()` and fails with the out-of-range error when `i >= size()`,
in particular for `i == size()`; whenever it returns a value, the index is in
range and the value is the entry stored there, never a default. -/
theorem at_in_range_or_out_of_range (d : Dimensions) (i : Nat) :
    (∀ h : i < d.size, d.at_ i = .ok (d.get ⟨i, h⟩)) ∧
    (d.size ≤ i → d.at_ i = .error Error.out_of_range) ∧
    d.at_ d.size = .error Error.out_of_range ∧
    (∀ v, d.at_ i = .ok v → i < d.size ∧ d.get? i = some v) := by
  unfold Dimensions.size
  refine ⟨?_, ?_, ?_, ?_⟩
  · intro h
    unfold Dimensions.at_
    rw [dif_pos h]
  · intro h
    unfold Dimensions.at_
    rw [dif_neg (Nat.not_lt.mpr h)]
  · unfold Dimensions.at_
    rw [dif_neg (Nat.lt_irrefl _)]
  · intro v hv
    unfold Dimensions.at_ at hv
    split at hv
    · next h =>
      injection hv with hv
      exact ⟨h, List.get?_eq_some.mpr ⟨h, hv⟩⟩
    · exact absurd hv (by simp)

/-! ## The count in machine arithmetic -/

/-- C13, as stated, fails in its last clause: the shape
`[2147483648, 7, 1227133513]` has 32-bit extents, is non-empty, and its
product `2 ^ 64 - 2 ^ 31` wraps to `2 ^ 31`, which has bit 31 set; yet
`getCount()` returns `2 ^ 64 - 2 ^ 31`, which is the product. -/
theorem getCount_bit31_equals_product_counterexample :
    Dimensions.wf [2147483648, 7, 1227133513] ∧
    ([2147483648, 7, 1227133513] : Dimensions) ≠ [] ∧
    List.prod ([2147483648, 7, 1227133513] : Dimensions) = 2 ^ 64 - 2 ^ 31 ∧
    2 ^ 31 ≤ List.prod ([2147483648, 7, 1227133513] : Dimensions) % 2 ^ 32 ∧
    2 ^ 64 - 2 ^ 31 ≤ Dimensions.getCount [2147483648, 7, 1227133513] ∧
    Dimensions.getCount [2147483648, 7, 1227133513] =
      List.prod ([2147483648, 7, 1227133513] : Dimensions) ∧
    ¬ (∀ d : Dimensions, d.wf → d ≠ [] → 2 ^ 31 ≤ d.prod % 2 ^ 32 →
        2 ^ 64 - 2 ^ 31 ≤ d.getCount ∧ d.getCount ≠ d.prod) := by
  refine ⟨by decide, by decide, by decide, by decide, by decide, by decide, ?_⟩
  intro h
  exact absurd (h [2147483648, 7, 1227133513] (by decide) (by decide) (by decide)).2
    (by decide)

/-- C13, amended: for every non-empty `d`, `getCount()` is the product of the
entries reduced modulo `2 ^ 32`, read as a signed 32-bit `int` and converted
to the 64-bit `size_t`; it equals the exact product whenever that product is
below `2 ^ 31`; and when the wrapped product has bit 31 set, as for the
one-axis shape `[2 ^ 31]`, it is at least `2 ^ 64 - 2 ^ 31`, differs from the
wrapped product, and equals the exact product only when that product lies
between `2 ^ 64 - 2 ^ 31` and `2 ^ 64`, so it differs from every exact product
below `2 ^ 64 - 2 ^ 31`. -/
theorem getCount_wrapped_signed (d : Dimensions) :
    (d ≠ [] → d.getCount = toSizeT (toInt (d.prod % 2 ^ 32))) ∧
    (d ≠ [] → d.prod < 2 ^ 31 → d.getCount = d.prod) ∧
    (d ≠ [] → 2 ^ 31 ≤ d.prod % 2 ^ 32 →
      2 ^ 64 - 2 ^ 31 ≤ d.getCount ∧ d.getCount ≠ d.prod % 2 ^ 32 ∧
      (d.getCount = d.prod ↔ 2 ^ 64 - 2 ^ 31 ≤ d.prod ∧ d.prod < 2 ^ 64) ∧
      (d.prod < 2 ^ 64 - 2 ^ 31 → d.getCount ≠ d.prod)) ∧
    (Dimensions.wf [2 ^ 31] ∧ List.prod ([2 ^ 31] : Dimensions) = 2 ^ 31 ∧
      Dimensions.getCount [2 ^ 31] = 2 ^ 64 - 2 ^ 31 ∧
      Dimensions.getCount [2 ^ 31] ≠ List.prod ([2 ^ 31] : Dimensions)) := by
  refine ⟨?_, ?_, ?_, ⟨by decide, by decide, by decide, by decide⟩⟩
  · intro hne
    rw [getCount_eq d hne, toSizeT_toInt, Nat.mod_mod]
  · intro hne hlt
    have hmod : d.prod % 2 ^ 32 = d.prod := Nat.mod_eq_of_lt (by omega)
    rw [getCount_eq d hne, hmod, if_pos hlt]
  · intro hne hbit
    have hlt : d.prod % 2 ^ 32 < 2 ^ 32 := Nat.mod_lt _ (by norm_num)
    rw [getCount_eq d hne, if_neg (Nat.not_lt.mpr hbit)]
    refine ⟨by omega, by omega, ?_, ?_⟩
    · constructor
      · intro h
        omega
      · intro h
        omega
    · intro hsmall
      omega

/-- C14: for every `d1` and `d2` such that `d2` is a permutation of the
entries of `d1`, `getCount()`, `isInvalid()`, `isSpecified()` and
`isUnspecified()` return the same results on both, whether or not the product
wraps around. -/
theorem getCount_perm (d1 d2 : Dimensions) (h : List.Perm d1 d2) :
    d1.getCount = d2.getCount ∧ d1.isInvalid = d2.isInvalid ∧
    d1.isSpecified = d2.isSpecified ∧ d1.isUnspecified = d2.isUnspecified := by
  have hcount : d1.getCount = d2.getCount := by
    by_cases h1 : d1 = []
    · subst h1
      rw [List.nil_perm] at h
      rw [h]
    · have h2 : d2 ≠ [] := fun h0 => h1 (by rw [h0] at h; exact List.perm_nil.mp h)
      rw [getCount_eq d1 h1, getCount_eq d2 h2, h.prod_eq]
  refine ⟨hcount, ?_, ?_, ?_⟩
  · unfold Dimensions.isInvalid
    rw [hcount]
  · unfold Dimensions.isSpecified Dimensions.isInvalid
    rw [hcount]
  · unfold Dimensions.isUnspecified Dimensions.size
    rw [h.length_eq]

/-- C14 at `[65536, 3, 65537]` and its permutation `[3, 65537, 65536]`, whose
product `12885098496` wraps to `196608`. -/
theorem getCount_perm_witness :
    List.Perm ([65536, 3, 65537] : Dimensions) [3, 65537, 65536] ∧
    Dimensions.getCount [65536, 3, 65537] = 196608 ∧
    Dimensions.getCount [3, 65537, 65536] = 196608 ∧
    (Dimensions.getCount [65536, 3, 65537] = Dimensions.getCount [3, 65537, 65536] ∧
      Dimensions.isInvalid [65536, 3, 65537] = Dimensions.isInvalid [3, 65537, 65536] ∧
      Dimensions.isSpecified [65536, 3, 65537] = Dimensions.isSpecified [3, 65537, 65536] ∧
      Dimensions.isUnspecified [65536, 3, 65537] =
        Dimensions.isUnspecified [3, 65537, 65536]) :=
  ⟨by decide, by decide, by decide,
    getCount_perm [65536, 3, 65537] [3, 65537, 65536] (by decide)⟩

/-! ## No error from the predicates -/

/-- C15: for every `d`, the empty one included, `isDontcare()` returns a
boolean and raises no out-of-range error: when `size() == 1` the access
`at(0)` it evaluates succeeds, and otherwise `at(0)` is not evaluated, although
on the empty shape `at(0)` alone would raise. `isUnspecified()`, `isInvalid()`,
`isSpecified()` and `getCount()` perform no bounds-checked access. -/
theorem isDontcare_no_error (d : Dimensions) :
    (∃ b, d.isDontcare = .ok b) ∧
    (∀ e, d.isDontcare ≠ .error e) ∧
    (d.size = 1 → ∃ v, d.at_ 0 = .ok v ∧ d.isDontcare = .ok (v == 0)) ∧
    (d.size ≠ 1 → d.isDontcare = .ok false) ∧
    (Dimensions.at_ [] 0 = .error Error.out_of_range ∧
      Dimensions.isDontcare [] = .ok false) := by
  have hok : d.isDontcare = .ok (decide (d = [0])) := isDontcare_eq d
  refine ⟨⟨_, hok⟩, ?_, ?_, ?_, ⟨rfl, rfl⟩⟩
  · intro e he
    rw [hok] at he
    exact absurd he (by simp)
  · intro h
    match d, h with
    | [x], _ => exact ⟨x, rfl, rfl⟩
  · intro h
    unfold Dimensions.isDontcare
    rw [if_neg (by simpa using h)]

/-! ## Textual round trip -/

theorem digitChar_isDigit_value :
    ∀ k, k < 10 → (Nat.digitChar k).isDigit = true ∧ digitValue (Nat.digitChar k) = k := by
  decide

theorem digitsValue_cons (c : Char) (cs : List Char) (a : Nat) :
    digitsValue (c :: cs) a = digitsValue cs (10 * a + digitValue c) := rfl

theorem digitsValue_shift (cs : List Char) (a : Nat) :
    digitsValue cs a = a * 10 ^ cs.length + digitsValue cs 0 := by
  induction cs generalizing a with
  | nil => simp [digitsValue]
  | cons c rest ih =>
    rw [digitsValue_cons, digitsValue_cons, ih (10 * a + digitValue c),
      ih (10 * 0 + digitValue c), List.length_cons]
    ring

theorem toDigitsCore_value (fuel : Nat) :
    ∀ (n : Nat) (ds : List Char), n < fuel →
      digitsValue (Nat.toDigitsCore 10 fuel n ds) 0 = n * 10 ^ ds.length + digitsValue ds 0 := by
  induction fuel with
  | zero => intro n ds h; omega
  | succ fuel ih =>
    intro n ds h
    have hd := (digitChar_isDigit_value (n % 10) (Nat.mod_lt n (by norm_num))).2
    rw [Nat.toDigitsCore]
    split
    · next h0 =>
      have hn : n % 10 = n := by omega
      rw [digitsValue_cons, hd, digitsValue_shift ds, hn]
      ring
    · next h0 =>
      rw [ih (n / 10) _ (by omega), digitsValue_cons, hd, digitsValue_shift ds (10 * 0 + n % 10),
        List.length_cons]
      have hdm : n = 10 * (n / 10) + n % 10 := (Nat.div_add_mod n 10).symm
      generalize n / 10 = q at hdm ⊢
      generalize n % 10 = r at hdm ⊢
      subst hdm
      ring

theorem toDigitsCore_isDigit (fuel : Nat) :
    ∀ (n : Nat) (ds : List Char), (∀ c ∈ ds, c.isDigit = true) →
      ∀ c ∈ Nat.toDigitsCore 10 fuel n ds, c.isDigit = true := by
  induction fuel with
  | zero => intro n ds h; simpa [Nat.toDigitsCore] using h
  | succ fuel ih =>
    intro n ds h
    have hd := (digitChar_isDigit_value (n % 10) (Nat.mod_lt n (by norm_num))).1
    have hcons : ∀ c ∈ Nat.digitChar (n % 10) :: ds, c.isDigit = true := by
      intro c hc
      rcases List.mem_cons.mp hc with h1 | h1
      · rw [h1]; exact hd
      · exact h c h1
    rw [Nat.toDigitsCore]
    split
    · exact hcons
    · exact ih (n / 10) _ hcons

theorem toDigitsCore_ne_nil (fuel n : Nat) (ds : List Char) :
    Nat.toDigitsCore 10 (fuel + 1) n ds ≠ [] := by
  induction fuel generalizing n ds with
  | zero =>
    rw [Nat.toDigitsCore]
    split
    · simp
    · simp [Nat.toDigitsCore]
  | succ fuel ih =>
    rw [Nat.toDigitsCore]
    split
    · simp
    · exact ih _ _

theorem writeUInt_value (n : Nat) : digitsValue (writeUInt n) 0 = n := by
  unfold writeUInt Nat.toDigits
  rw [toDigitsCore_value (n + 1) n [] (Nat.lt_succ_self n)]
  simp [digitsValue]

theorem writeUInt_isDigit (n : Nat) : ∀ c ∈ writeUInt n, c.isDigit = true := by
  unfold writeUInt Nat.toDigits
  exact toDigitsCore_isDigit (n + 1) n [] (by simp)

theorem writeUInt_ne_nil (n : Nat) : writeUInt n ≠ [] := by
  unfold writeUInt Nat.toDigits
  exact toDigitsCore_ne_nil n n []

theorem readItems_cons (c : Char) (rest : List Char) (acc : List Nat) (cur : Option Nat) :
    readItems (c :: rest) acc cur =
      if c.isDigit then
        readItems rest acc (some (10 * cur.getD 0 + digitValue c))
      else
        match cur with
        | none =>
          if c = ']' ∧ acc = [] then .ok ([], rest) else .error ParseError.malformed
        | some n =>
          if n < 2 ^ UINT_BITS then
            if c = ']' then .ok ((n :: acc).reverse, rest)
            else if c = ',' then
              match rest with
              | ' ' :: more => readItems more (n :: acc) none
              | _ => .error ParseError.malformed
            else .error ParseError.malformed
          else .error ParseError.malformed := by
  rw [readItems.eq_def]

theorem readItems_digit (c : Char) (rest : List Char) (acc : List Nat) (cur : Option Nat)
    (h : c.isDigit = true) :
    readItems (c :: rest) acc cur =
      readItems rest acc (some (10 * cur.getD 0 + digitValue c)) := by
  rw [readItems_cons, if_pos h]

theorem readItems_digits (xs : List Char) (h : ∀ c ∈ xs, c.isDigit = true)
    (rest : List Char) (acc : List Nat) (a : Nat) :
    readItems (xs ++ rest) acc (some a) = readItems rest acc (some (digitsValue xs a)) := by
  induction xs generalizing a with
  | nil => rfl
  | cons c more ih =>
    rw [List.cons_append, readItems_digit c _ acc _ (h c (List.mem_cons_self c more)),
      ih (fun e he => h e (List.mem_cons_of_mem c he)), digitsValue_cons]
    rfl

theorem readItems_writeUInt (n : Nat) (rest : List Char) (acc : List Nat) :
    readItems (writeUInt n ++ rest) acc none = readItems rest acc (some n) := by
  have hval := writeUInt_value n
  have hdig := writeUInt_isDigit n
  have hne := writeUInt_ne_nil n
  match hw : writeUInt n with
  | [] => exact absurd hw hne
  | c :: more =>
    rw [hw] at hval hdig
    rw [List.cons_append, readItems_digit c _ acc _ (hdig c (List.mem_cons_self c more)),
      readItems_digits more (fun e he => hdig e (List.mem_cons_of_mem c he))]
    rw [digitsValue_cons] at hval
    simp only [Option.getD_none]
    rw [hval]

theorem readItems_close (n : Nat) (hn : n < 2 ^ UINT_BITS) (rest : List Char)
    (acc : List Nat) :
    readItems (']' :: rest) acc (some n) = .ok ((n :: acc).reverse, rest) := by
  rw [readItems_cons, if_neg (by decide)]
  simp only [if_pos hn, if_true]

theorem readItems_delimiter (n : Nat) (hn : n < 2 ^ UINT_BITS) (more : List Char)
    (acc : List Nat) :
    readItems (',' :: ' ' :: more) acc (some n) = readItems more (n :: acc) none := by
  rw [readItems_cons, if_neg (by decide)]
  simp only [if_pos hn]
  rw [if_neg (by decide)]
  rfl

theorem readItems_writeTail (xs : List Nat) (hxs : ∀ x ∈ xs, x < 2 ^ UINT_BITS)
    (n : Nat) (hn : n < 2 ^ UINT_BITS) (rest : List Char) (acc : List Nat) :
    readItems (writeTail xs ++ ']' :: rest) acc (some n) =
      .ok ((n :: acc).reverse ++ xs, rest) := by
  induction xs generalizing n acc with
  | nil =>
    rw [writeTail, List.nil_append, readItems_close n hn, List.append_nil]
  | cons x more ih =>
    have hx : x < 2 ^ UINT_BITS := hxs x (List.mem_cons_self x more)
    rw [writeTail, List.cons_append, List.cons_append, List.append_assoc,
      readItems_delimiter n hn, readItems_writeUInt,
      ih (fun y hy => hxs y (List.mem_cons_of_mem x hy)) x hx]
    simp

theorem readVector_writeVector (v : List Nat) (hv : ∀ x ∈ v, x < 2 ^ UINT_BITS)
    (rest : List Char) : readVector (writeVector v ++ rest) = .ok (v, rest) := by
  match v, hv with
  | [], _ =>
    unfold writeVector readVector
    simp only [List.cons_append, List.nil_append]
    rw [readItems_cons, if_neg (by decide)]
    simp
  | x :: more, hv =>
    have hx : x < 2 ^ UINT_BITS := hv x (List.mem_cons_self x more)
    unfold writeVector readVector
    simp only [List.cons_append, List.append_assoc, List.singleton_append]
    rw [readItems_writeUInt,
      readItems_writeTail more (fun y hy => hv y (List.mem_cons_of_mem x hy)) x hx]
    simp

/-- The one statement of `operator>>` reads back what `operator<<` wrote: for
every `s` with 32-bit extents, after the text written for `s` has been read
into an object with any former entries, the object has the same length and
the same per-axis values in the same order as `s`, and exactly the text
written has been consumed. -/
theorem statement_reads_back_written (s : Dimensions) (hwf : s.wf)
    (d : Dimensions) (rest : Stream) :
    d.operator_rshift_statement (s.operator_lshift [] ++ rest) = (s, rest, none) ∧
    (d.operator_rshift_statement (s.operator_lshift [])).1 = s ∧
    (d.operator_rshift_statement (s.operator_lshift [])).1.size = s.size ∧
    (∀ i, (d.operator_rshift_statement (s.operator_lshift [])).1.at_ i = s.at_ i) := by
  have hrt : ∀ r : Stream,
      d.operator_rshift_statement (s.operator_lshift [] ++ r) = (s, r, none) := by
    intro r
    unfold Dimensions.operator_rshift_statement Dimensions.operator_lshift
    rw [List.nil_append, readVector_writeVector s hwf r]
  have h0 := hrt []
  rw [List.append_nil] at h0
  refine ⟨hrt rest, ?_, ?_, ?_⟩
  · rw [h0]
  · rw [h0]
  · intro i
    rw [h0]

/-- C12: on the shape `[3, 4]`, which has 32-bit extents and `size() > 0`,
the output operator writes the text `[3, 4]` and the one statement of the
input operator reads `[3, 4]` back, but the call of the input operator does
not return: its body ends without a `return` statement, so the behaviour of
the call is undefined, for this and for every other object and stream. -/
theorem operator_rshift_undefined :
    Dimensions.wf [3, 4] ∧ 0 < Dimensions.size [3, 4] ∧
    Dimensions.operator_lshift [3, 4] [] = ['[', '3', ',', ' ', '4', ']'] ∧
    Dimensions.operator_rshift_statement [] (Dimensions.operator_lshift [3, 4] [])
      = ([3, 4], [], none) ∧
    Dimensions.operator_rshift [] (Dimensions.operator_lshift [3, 4] [])
      = Outcome.undefined ∧
    (∀ r, Dimensions.operator_rshift [] (Dimensions.operator_lshift [3, 4] [])
      ≠ Outcome.returned r) ∧
    (∀ (d : Dimensions) (f : Stream), d.operator_rshift f = Outcome.undefined) := by
  refine ⟨by decide, by decide, by decide, by decide, rfl, ?_, fun _ _ => rfl⟩
  intro r h
  exact Outcome.noConfusion h

end nupic
